import Mathlib

/-!
# ifb-scrapper: cache store, message dispatcher, reconnection supervisor, auth middleware

A shallow embedding of `main.go`.  Values decoded by `encoding/json` into
`interface{}` are the inductive type `Value`; a Go `map[string]interface{}` is an
association list read by first match (`GoMap.get`) and written by `GoMap.set`.
A failed unchecked type assertion or an out-of-range index is a `Panic`, carried in
`Except`.  The infinite supervisor loop is run against a scripted list of session
results and returns the trace of `time.Sleep` arguments.
-/

namespace IfbScrapper

/-! ## float64 values as decoded from JSON -/

/-- A finite `float64`: the value is `(-1)^neg * mant * 2^exp`.  JSON decoding
never yields NaN or an infinity.  The sign bit is kept apart so that negative
zero is a value of its own, as it is in Go. -/
structure Float64 where
  neg : Bool
  mant : Nat
  exp : Int
  deriving DecidableEq, Repr

namespace Float64

/-- The float64 holding the natural number `n` (exact for `n < 2^53`). -/
def ofNat (n : Nat) : Float64 := ⟨false, n, 0⟩

/-- Magnitude rounded to the nearest integer, ties to even: the digits that
`strconv.FormatFloat(x, 'f', 0, 64)` prints. -/
def roundHalfEven (x : Float64) : Nat :=
  match x.exp with
  | Int.ofNat e => x.mant * 2 ^ e
  | Int.negSucc e =>
    let d := 2 ^ (e + 1)
    let q := x.mant / d
    let r := x.mant % d
    if 2 * r < d then q
    else if d < 2 * r then q + 1
    else if q % 2 = 0 then q else q + 1

/-- Magnitude truncated toward zero. -/
def truncMag (x : Float64) : Nat :=
  match x.exp with
  | Int.ofNat e => x.mant * 2 ^ e
  | Int.negSucc e => x.mant / 2 ^ (e + 1)

/-- Integer part of the value, truncated toward zero. -/
def trunc (x : Float64) : Int :=
  if x.neg then -(x.truncMag : Int) else (x.truncMag : Int)

end Float64

/-- The result of `fmt.Sprintf("%.0f", x)`: a minus sign when the sign bit is
set, then the magnitude rounded half-to-even, in decimal. -/
def sprintf0f (x : Float64) : String :=
  (if x.neg then "-" else "") ++ toString x.roundHalfEven

/-- The Go conversion `int(x)` on a 64-bit platform: truncation toward zero when
the result fits in `int`; otherwise the Go specification leaves the result to the
implementation, which is the parameter `ovf`. -/
def intOfFloat (ovf : Float64 → Int) (x : Float64) : Int :=
  if -(2 : Int) ^ 63 ≤ x.trunc ∧ x.trunc < (2 : Int) ^ 63 then x.trunc else ovf x

/-! ## decoded JSON values and Go maps -/

/-- An `interface{}` holding what `encoding/json` decodes: `nil`, `bool`,
`float64`, `string`, `[]interface{}` or `map[string]interface{}`. -/
inductive Value where
  | null : Value
  | bool (b : Bool) : Value
  | number (x : Float64) : Value
  | string (s : String) : Value
  | array (xs : List Value) : Value
  | object (m : List (String × Value)) : Value

/-- A `map[string]interface{}`. -/
abbrev GoMap := List (String × Value)

namespace GoMap

/-- The expression `make(map[string]interface{})`. -/
def empty : GoMap := []

/-- The two-result index expression `v, ok := m[k]`; `none` is `ok == false`. -/
def get : GoMap → String → Option Value
  | [], _ => none
  | (k', v) :: rest, k => if k' = k then some v else get rest k

/-- The assignment `m[k] = v`. -/
def set : GoMap → String → Value → GoMap
  | [], k, v => [(k, v)]
  | (k', v') :: rest, k, v =>
    if k' = k then (k, v) :: rest else (k', v') :: set rest k v

/-- The keys of the map, in storage order. -/
def keys (m : GoMap) : List String := m.map Prod.fst

/-- A Go map holds each key once. -/
def WF (m : GoMap) : Prop := (keys m).Nodup

end GoMap

/-- A runtime panic. -/
inductive Panic where
  | typeAssertion : Panic
  | indexOutOfRange : Panic
  deriving DecidableEq, Repr

/-- The single-result assertion `v.(map[string]interface{})` on the result of an
index expression (a missing key gives the nil interface). -/
def assertObject : Option Value → Except Panic GoMap
  | some (Value.object m) => Except.ok m
  | _ => Except.error Panic.typeAssertion

/-- The single-result assertion `v.([]interface{})`. -/
def assertArray : Option Value → Except Panic (List Value)
  | some (Value.array xs) => Except.ok xs
  | _ => Except.error Panic.typeAssertion

/-- The single-result assertion `v.(float64)`. -/
def assertFloat64 : Option Value → Except Panic Float64
  | some (Value.number x) => Except.ok x
  | _ => Except.error Panic.typeAssertion

/-- The index expression `xs[0]`. -/
def index0 : List Value → Except Panic Value
  | [] => Except.error Panic.indexOutOfRange
  | x :: _ => Except.ok x

/-- The comparison `v == s` of an interface value with a string constant, as the
`switch` of `processStreamMessage` performs it: true only for a string of equal
content. -/
def ifaceEqString : Option Value → String → Bool
  | some (Value.string t), s => decide (t = s)
  | _, _ => false

/-! ## the cache store -/

/-- The cache: `Table map[string]interface{}` (the lock has no sequential content). -/
structure AppCache where
  Table : GoMap

/-- The constructor `NewAppCache`. -/
def NewAppCache : AppCache := ⟨GoMap.empty⟩

namespace AppCache

/-- `UpdateSingleTable`: `c.Table = data.(map[string]interface{})`. -/
def UpdateSingleTable (_c : AppCache) (data : Value) : Except Panic AppCache :=
  match assertObject (some data) with
  | Except.ok m => Except.ok ⟨m⟩
  | Except.error p => Except.error p

/-- One iteration of the loop of `UpdateRow`. -/
def updateRowStep (table : GoMap) (row : Value) : GoMap :=
  match row with
  | Value.object rowData =>
    match GoMap.get rowData "SymbolId" with
    | some (Value.number symbolId) => GoMap.set table (sprintf0f symbolId) (Value.object rowData)
    | _ => table
  | _ => table

/-- `UpdateRow`: a value that is not a list is reported and ignored; otherwise
every entry is an upsert, and an entry of the wrong shape is skipped. -/
def UpdateRow (c : AppCache) (data : Value) : AppCache :=
  match data with
  | Value.array rowDataSlice => ⟨rowDataSlice.foldl updateRowStep c.Table⟩
  | _ => c

/-- `GetTable`. -/
def GetTable (c : AppCache) : GoMap := c.Table

/-- The test of `GetFilteredTable` on one table value. -/
def marketMatches (ovf : Float64 → Int) (marketNumber : Int) (value : Value) : Bool :=
  match value with
  | Value.object row =>
    match GoMap.get row "MarketNumber" with
    | some (Value.number rowMarketNumber) =>
      decide (intOfFloat ovf rowMarketNumber = marketNumber)
    | _ => false
  | _ => false

/-- One iteration of the loop of `GetFilteredTable`. -/
def filterStep (ovf : Float64 → Int) (marketNumber : Int) (filteredTable : GoMap)
    (kv : String × Value) : GoMap :=
  if marketMatches ovf marketNumber kv.2 then GoMap.set filteredTable kv.1 kv.2 else filteredTable

/-- `GetFilteredTable`: ranges over the table and copies the matching entries
into a fresh map. -/
def GetFilteredTable (ovf : Float64 → Int) (c : AppCache) (marketNumber : Int) : GoMap :=
  c.Table.foldl (filterStep ovf marketNumber) GoMap.empty

end AppCache

/-! ## the message dispatcher -/

/-- The decoded frame: `C string`, `M []interface{}`. -/
structure StreamMessage where
  C : String
  M : List Value

/-- One iteration of the loop of `convertToSymbolIdMap`: an entry that is not an
object, or has no `SymbolId`, is passed over; the assertion on `SymbolId` is
unchecked. -/
def convertStep (result : GoMap) (item : Value) : Except Panic GoMap :=
  match item with
  | Value.object itemMap =>
    match GoMap.get itemMap "SymbolId" with
    | some symbolId =>
      match assertFloat64 (some symbolId) with
      | Except.ok x => Except.ok (GoMap.set result (sprintf0f x) (Value.object itemMap))
      | Except.error p => Except.error p
    | none => Except.ok result
  | _ => Except.ok result

/-- The loop of `convertToSymbolIdMap`, stopping at the first panic. -/
def convertLoop : GoMap → List Value → Except Panic GoMap
  | result, [] => Except.ok result
  | result, item :: rest =>
    match convertStep result item with
    | Except.ok result' => convertLoop result' rest
    | Except.error p => Except.error p

/-- `convertToSymbolIdMap`: `data.([]interface{})` is unchecked. -/
def convertToSymbolIdMap (data : Value) : Except Panic GoMap :=
  match assertArray (some data) with
  | Except.ok dataSlice => convertLoop GoMap.empty dataSlice
  | Except.error p => Except.error p

/-- The expression `msg["A"].([]interface{})[0]`. -/
def firstArgument (msg : GoMap) : Except Panic Value :=
  match assertArray (GoMap.get msg "A") with
  | Except.ok args => index0 args
  | Except.error p => Except.error p

/-- The body of the loop of `processStreamMessage` for one entry `m`. -/
def processEntry (c : AppCache) (m : Value) : Except Panic AppCache :=
  match assertObject (some m) with
  | Except.error p => Except.error p
  | Except.ok msg =>
    if ifaceEqString (GoMap.get msg "M") "updateSingleTable" then
      match firstArgument msg with
      | Except.error p => Except.error p
      | Except.ok data =>
        match convertToSymbolIdMap data with
        | Except.error p => Except.error p
        | Except.ok table => c.UpdateSingleTable (Value.object table)
    else if ifaceEqString (GoMap.get msg "M") "updateRow" then
      match firstArgument msg with
      | Except.error p => Except.error p
      | Except.ok data => Except.ok (c.UpdateRow data)
    else Except.ok c

/-- The loop of `processStreamMessage` over the entries, stopping at the first panic. -/
def processEntries : AppCache → List Value → Except Panic AppCache
  | c, [] => Except.ok c
  | c, m :: rest =>
    match processEntry c m with
    | Except.ok c' => processEntries c' rest
    | Except.error p => Except.error p

/-- `processStreamMessage`, on the cache `c` standing for the global `appCache`. -/
def processStreamMessage (c : AppCache) (message : StreamMessage) : Except Panic AppCache :=
  processEntries c message.M

/-! ## the reconnection supervisor -/

/-- Two's-complement wrap into the `int64` range: what `int64` arithmetic yields for
the exact result `x`. -/
def wrapInt64 (x : Int) : Int := (x + 2 ^ 63) % 2 ^ 64 - 2 ^ 63

/-- `time.Second`; a `time.Duration` is an `int64` count of nanoseconds, held here
as an integer with the wrap made explicit by `wrapInt64`. -/
def Second : Int := 1000000000

/-- `time.Minute`. -/
def Minute : Int := 60 * Second

/-- The errors `processStream` returns, one constructor per `return` statement of
its body; every `return` of `processStream` carries an error, and the read loop is
left only through `streamClosed` (end of stream), `readingLine` or `postRequest`. -/
inductive SessionError where
  | initialCookies : SessionError
  | negotiating : SessionError
  | creatingRequest : SessionError
  | sendingRequest : SessionError
  | unexpectedStatus (code : Int) : SessionError
  | streamClosed : SessionError
  | readingLine : SessionError
  | postRequest : SessionError
  deriving DecidableEq, Repr

/-- The update of `backoff` in the failure branch: `backoff *= 2`, then the cap at
`time.Minute * 5`. -/
def nextBackoff (backoff : Int) : Int :=
  let doubled := wrapInt64 (backoff * 2)
  if doubled > Minute * 5 then Minute * 5 else doubled

/-- The loop of `startStreamProcessing` from a given `backoff`, run against the
results of the successive calls of `processStream` (`none` is a nil error); the
value is the list of arguments of `time.Sleep`, in order. -/
def superviseFrom : Int → List (Option SessionError) → List Int
  | _, [] => []
  | backoff, some _ :: rest => backoff :: superviseFrom (nextBackoff backoff) rest
  | _, none :: rest => superviseFrom Second rest

/-- The value of `backoff` after the loop has consumed the given results. -/
def backoffAfter : Int → List (Option SessionError) → Int
  | backoff, [] => backoff
  | backoff, some _ :: rest => backoffAfter (nextBackoff backoff) rest
  | _, none :: rest => backoffAfter Second rest

/-- `startStreamProcessing`: the loop entered with `backoff := time.Second`. -/
def startStreamProcessing (results : List (Option SessionError)) : List Int :=
  superviseFrom Second results

/-! ## the authentication middleware -/

/-- The separator of `strings.Split(authHeader, " ")`: the space character. -/
def spaceChar : Char := Char.ofNat 32

/-- `strings.Split(s, " ")` on the characters of `s`: the pieces between the spaces;
a string without a space, the empty string included, gives one piece. -/
def splitSpace : List Char → List (List Char)
  | [] => [[]]
  | ch :: rest =>
    if ch = spaceChar then [] :: splitSpace rest
    else
      match splitSpace rest with
      | [] => [[ch]]
      | piece :: pieces => (ch :: piece) :: pieces

/-- What the middleware does with the request: `next` is `c.Next()`, the handler
runs; `abort status error` is `c.JSON(status, gin.H{"error": error})` followed by
`c.Abort()`, the handler does not run. -/
inductive AuthResult where
  | next : AuthResult
  | abort (status : Nat) (error : String) : AuthResult
  deriving DecidableEq, Repr

/-- The handler returned by `AuthMiddleware`, for the global `token`; `header` is the
`Authorization` header, and `c.GetHeader` gives `""` when it is absent. -/
def AuthMiddleware (token : String) (header : Option String) : AuthResult :=
  let authHeader := header.getD ""
  if authHeader = "" then AuthResult.abort 401 "Authorization header is required"
  else
    let bearerToken := (splitSpace authHeader.data).map String.mk
    if bearerToken.length ≠ 2 ∨ bearerToken.head? ≠ some "Bearer" then
      AuthResult.abort 401 "Invalid authorization header format"
    else
      let tokenString := bearerToken.getD 1 ""
      if tokenString ≠ token then AuthResult.abort 401 "Invalid token"
      else AuthResult.next

/-- The pieces put back together with one space between neighbours. -/
def joinSpace : List (List Char) → List Char
  | [] => []
  | [piece] => piece
  | piece :: next :: rest => piece ++ spaceChar :: joinSpace (next :: rest)

/-! ## specification-side vocabulary -/

/-- In the spec's words: the key of a well-formed row, an object whose `SymbolId`
is a number, is that number rendered with zero fraction digits; a malformed entry
has none. -/
def rowKey : Value → Option String
  | Value.object row =>
    match GoMap.get row "SymbolId" with
    | some (Value.number s) => some (sprintf0f s)
    | _ => none
  | _ => none

/-- In the spec's words: an entry is well-formed when it is an object whose
`SymbolId` is a number. -/
def wellFormedRow (r : Value) : Bool := (rowKey r).isSome

/-- In the spec's words: the last row of `L` whose key is `k`. -/
def lastRowWithKey (L : List Value) (k : String) : Option Value :=
  (L.filter (fun r => decide (rowKey r = some k))).getLast?

/-- In the spec's words the filter is an equality of the category field with the
filter value: the exact rational value of a float64, to state that equality. -/
def Float64.toRat (x : Float64) : ℚ :=
  (if x.neg then -1 else 1) * (x.mant : ℚ) * (2 : ℚ) ^ x.exp

/-! ## frames on the wire -/

/-- The decoded frame `{"C": cursor, "M": [{"H": "myhub", "M": tag, "A": [rows]}]}`. -/
def hubFrame (cursor tag : String) (rows : List Value) : StreamMessage :=
  ⟨cursor, [Value.object [("H", Value.string "myhub"), ("M", Value.string tag),
    ("A", Value.array [Value.array rows])]]⟩

/-- The row `{"SymbolId": 5.0, "MarketNumber": 1.0, "LastPrice": 100.0}`. -/
def row5 : GoMap :=
  [("SymbolId", Value.number (Float64.ofNat 5)), ("MarketNumber", Value.number (Float64.ofNat 1)),
   ("LastPrice", Value.number (Float64.ofNat 100))]

/-- A prior cache holding the single stale key `"9"`. -/
def staleCache : AppCache := ⟨[("9", Value.object [("SymbolId", Value.number (Float64.ofNat 9))])]⟩

/-- A snapshot batch in which the key `"1"` occurs twice. -/
def snapshotRows : List Value :=
  [Value.object [("SymbolId", Value.number (Float64.ofNat 1)), ("LastPrice", Value.number (Float64.ofNat 10))],
   Value.object [("SymbolId", Value.number (Float64.ofNat 2))],
   Value.object [("SymbolId", Value.number (Float64.ofNat 1)), ("LastPrice", Value.number (Float64.ofNat 11))]]

/-- The entry `{"H": "myhub", "M": "updateSingleTable", "A": [snapshotRows]}`. -/
def snapshotEntry : GoMap :=
  [("H", Value.string "myhub"), ("M", Value.string "updateSingleTable"),
   ("A", Value.array [Value.array snapshotRows])]

/-- A frame whose entries carry an unknown tag, no tag, and a tag that is not a string. -/
def unknownTagFrame : StreamMessage :=
  ⟨"d-1", [Value.object [("M", Value.string "heartbeat"), ("A", Value.array [])],
           Value.object [("H", Value.string "myhub")],
           Value.object [("M", Value.number (Float64.ofNat 5)), ("A", Value.null)]]⟩

/-- A batch whose first entry has a `SymbolId` that is a string. -/
def stringIdRows : List Value :=
  [Value.object [("SymbolId", Value.string "x")],
   Value.object [("SymbolId", Value.number (Float64.ofNat 2))]]

/-- The float64 1.5. -/
def onePointFive : Float64 := ⟨false, 3, -1⟩

/-- A table with market numbers 1, 2 and 1.5. -/
def marketCache : AppCache :=
  ⟨[("1", Value.object [("SymbolId", Value.number (Float64.ofNat 1)),
      ("MarketNumber", Value.number (Float64.ofNat 1))]),
    ("2", Value.object [("SymbolId", Value.number (Float64.ofNat 2)),
      ("MarketNumber", Value.number (Float64.ofNat 2))]),
    ("7", Value.object [("SymbolId", Value.number (Float64.ofNat 7)),
      ("MarketNumber", Value.number onePointFive)])]⟩

/-- A row-update batch in which well-formed rows (`SymbolId` 1 and 2) stand between
malformed entries: a string, an object without `SymbolId`, an object whose
`SymbolId` is a string, and `null`. -/
def mixedBatch : List Value :=
  [Value.string "junk",
   Value.object [("SymbolId", Value.number (Float64.ofNat 1)),
     ("LastPrice", Value.number (Float64.ofNat 10))],
   Value.object [("LastPrice", Value.number (Float64.ofNat 3))],
   Value.object [("SymbolId", Value.string "x")],
   Value.null,
   Value.object [("SymbolId", Value.number (Float64.ofNat 2))]]

/-! ## lemmas on Go maps -/

theorem GoMap.get_set_self (m : GoMap) (k : String) (v : Value) :
    GoMap.get (GoMap.set m k v) k = some v := by
  induction m with
  | nil => simp [GoMap.set, GoMap.get]
  | cons kv rest ih =>
    obtain ⟨k', v'⟩ := kv
    by_cases h : k' = k
    · simp [GoMap.set, GoMap.get, h]
    · simp [GoMap.set, GoMap.get, h, ih]

theorem GoMap.get_set_ne (m : GoMap) (k j : String) (v : Value) (hne : j ≠ k) :
    GoMap.get (GoMap.set m k v) j = GoMap.get m j := by
  induction m with
  | nil =>
    have h : ¬ k = j := fun e => hne e.symm
    simp [GoMap.set, GoMap.get, h]
  | cons kv rest ih =>
    obtain ⟨k', v'⟩ := kv
    by_cases h : k' = k
    · subst h
      have h2 : ¬ k' = j := fun e => hne e.symm
      simp [GoMap.set, GoMap.get, h2]
    · by_cases h3 : k' = j
      · subst h3
        simp [GoMap.set, GoMap.get, hne]
      · simp [GoMap.set, GoMap.get, h, h3, ih]

theorem GoMap.get_eq_none_iff (m : GoMap) (k : String) :
    GoMap.get m k = none ↔ k ∉ GoMap.keys m := by
  induction m with
  | nil => simp [GoMap.get, GoMap.keys]
  | cons kv rest ih =>
    obtain ⟨k', v'⟩ := kv
    by_cases h : k' = k
    · simp [GoMap.get, GoMap.keys, h]
    · have h2 : ¬ k = k' := fun e => h e.symm
      simp only [GoMap.keys] at ih
      simp [GoMap.get, GoMap.keys, h, h2, ih]

theorem GoMap.mem_keys_iff (m : GoMap) (k : String) :
    k ∈ GoMap.keys m ↔ ∃ v, GoMap.get m k = some v := by
  by_cases h : k ∈ GoMap.keys m
  · cases hg : GoMap.get m k with
    | none => exact absurd h ((GoMap.get_eq_none_iff m k).mp hg)
    | some v => simp [h]
  · simp [h, (GoMap.get_eq_none_iff m k).mpr h]

/-! ## lemmas on the upsert loop -/

theorem updateRowStep_of_key (table : GoMap) (r : Value) (k : String)
    (h : rowKey r = some k) : AppCache.updateRowStep table r = GoMap.set table k r := by
  cases r with
  | object row =>
    simp only [rowKey] at h
    simp only [AppCache.updateRowStep]
    split at h
    · rename_i s hs
      simp only [Option.some.injEq] at h
      simp [hs, h]
    · exact absurd h (by simp)
  | _ => simp [rowKey] at h

theorem updateRowStep_of_none (table : GoMap) (r : Value)
    (h : rowKey r = none) : AppCache.updateRowStep table r = table := by
  cases r with
  | object row =>
    simp only [rowKey] at h
    simp only [AppCache.updateRowStep]
    split at h
    · exact absurd h (by simp)
    · rfl
  | _ => simp [AppCache.updateRowStep]

theorem foldl_updateRowStep_filter (L : List Value) (table : GoMap) :
    L.foldl AppCache.updateRowStep table
      = (L.filter wellFormedRow).foldl AppCache.updateRowStep table := by
  induction L generalizing table with
  | nil => rfl
  | cons r rest ih =>
    cases hk : rowKey r with
    | none =>
      have hw : wellFormedRow r = false := by simp [wellFormedRow, hk]
      simp [List.filter, hw, updateRowStep_of_none table r hk, ih]
    | some k =>
      have hw : wellFormedRow r = true := by simp [wellFormedRow, hk]
      simp [List.filter, hw, ih]

theorem get_foldl_updateRowStep (L : List Value) (table : GoMap) (k : String) :
    GoMap.get (L.foldl AppCache.updateRowStep table) k
      = match lastRowWithKey L k with
        | some r => some r
        | none => GoMap.get table k := by
  induction L using List.reverseRecOn with
  | nil => simp [lastRowWithKey]
  | append_singleton rest r ih =>
    rw [List.foldl_append]
    simp only [List.foldl_cons, List.foldl_nil]
    by_cases hk : rowKey r = some k
    · rw [updateRowStep_of_key _ r k hk, GoMap.get_set_self]
      simp [lastRowWithKey, List.filter_append, List.filter, hk]
    · have hl : lastRowWithKey (rest ++ [r]) k = lastRowWithKey rest k := by
        simp [lastRowWithKey, List.filter_append, List.filter, hk]
      rw [hl, ← ih]
      cases hk2 : rowKey r with
      | none => rw [updateRowStep_of_none _ r hk2]
      | some j =>
        have hne : k ≠ j := fun e => hk (by rw [hk2, e])
        rw [updateRowStep_of_key _ r j hk2, GoMap.get_set_ne _ _ _ _ hne]

theorem lastRowWithKey_eq_none_iff (L : List Value) (k : String) :
    lastRowWithKey L k = none ↔ ∀ r ∈ L, rowKey r ≠ some k := by
  simp [lastRowWithKey, List.getLast?_eq_none_iff, List.filter_eq_nil_iff]

theorem GoMap.keys_set (m : GoMap) (k : String) (v : Value) :
    GoMap.keys (GoMap.set m k v)
      = if k ∈ GoMap.keys m then GoMap.keys m else GoMap.keys m ++ [k] := by
  induction m with
  | nil => simp [GoMap.set, GoMap.keys]
  | cons kv rest ih =>
    obtain ⟨k', v'⟩ := kv
    simp only [GoMap.keys] at ih
    by_cases h : k' = k
    · simp [GoMap.set, GoMap.keys, h]
    · have h2 : ¬ k = k' := fun e => h e.symm
      by_cases hm : k ∈ List.map Prod.fst rest
      · simp only [hm, if_true] at ih
        have hm2 : k ∈ k' :: List.map Prod.fst rest := List.mem_cons_of_mem _ hm
        simp only [GoMap.set, GoMap.keys, h, if_false, List.map_cons, ih, hm2, if_true]
      · simp only [hm, if_false] at ih
        have hm2 : k ∉ k' :: List.map Prod.fst rest := by
          intro hc
          rcases List.mem_cons.mp hc with e | e
          · exact h2 e
          · exact hm e
        simp only [GoMap.set, GoMap.keys, h, if_false, List.map_cons, ih, hm2,
          List.cons_append]

theorem GoMap.WF_set (m : GoMap) (k : String) (v : Value) (h : GoMap.WF m) :
    GoMap.WF (GoMap.set m k v) := by
  unfold GoMap.WF at *
  rw [GoMap.keys_set]
  by_cases hm : k ∈ GoMap.keys m
  · simpa [hm] using h
  · simp only [hm, if_false]
    exact List.Nodup.append h (List.nodup_singleton k) (by simpa using hm)

theorem WF_updateRowStep (table : GoMap) (r : Value) (h : GoMap.WF table) :
    GoMap.WF (AppCache.updateRowStep table r) := by
  cases hk : rowKey r with
  | none => rw [updateRowStep_of_none _ r hk]; exact h
  | some k => rw [updateRowStep_of_key _ r k hk]; exact GoMap.WF_set _ _ _ h

theorem WF_foldl_updateRowStep (L : List Value) (table : GoMap) (h : GoMap.WF table) :
    GoMap.WF (L.foldl AppCache.updateRowStep table) := by
  induction L generalizing table with
  | nil => exact h
  | cons r rest ih => exact ih _ (WF_updateRowStep table r h)

/-! ## lemmas on the dispatcher -/

theorem convertStep_of_key (result : GoMap) (r : Value) (k : String)
    (h : rowKey r = some k) : convertStep result r = Except.ok (GoMap.set result k r) := by
  cases r with
  | object row =>
    simp only [rowKey] at h
    simp only [convertStep]
    split at h
    · rename_i s hs
      simp only [Option.some.injEq] at h
      simp [hs, h, assertFloat64]
    · exact absurd h (by simp)
  | _ => simp [rowKey] at h

theorem convertLoop_wellFormed (L : List Value) (result : GoMap)
    (hL : ∀ r ∈ L, wellFormedRow r = true) :
    convertLoop result L = Except.ok (L.foldl AppCache.updateRowStep result) := by
  induction L generalizing result with
  | nil => rfl
  | cons r rest ih =>
    have hr : wellFormedRow r = true := hL r (List.mem_cons_self _ _)
    obtain ⟨k, hk⟩ := Option.isSome_iff_exists.mp hr
    simp only [convertLoop, convertStep_of_key result r k hk, List.foldl_cons,
      updateRowStep_of_key result r k hk]
    exact ih _ (fun x hx => hL x (List.mem_cons_of_mem _ hx))

theorem processEntry_updateSingleTable (c : AppCache) (msg : GoMap) (L rest : List Value)
    (hM : GoMap.get msg "M" = some (Value.string "updateSingleTable"))
    (hA : GoMap.get msg "A" = some (Value.array (Value.array L :: rest)))
    (hL : ∀ r ∈ L, wellFormedRow r = true) :
    processEntry c (Value.object msg)
      = Except.ok ⟨L.foldl AppCache.updateRowStep GoMap.empty⟩ := by
  simp [processEntry, assertObject, hM, hA, ifaceEqString, firstArgument, assertArray, index0,
    convertToSymbolIdMap, convertLoop_wellFormed L GoMap.empty hL, AppCache.UpdateSingleTable]

theorem processEntry_updateRow (c : AppCache) (msg : GoMap) (data : Value) (rest : List Value)
    (hM : GoMap.get msg "M" = some (Value.string "updateRow"))
    (hA : GoMap.get msg "A" = some (Value.array (data :: rest))) :
    processEntry c (Value.object msg) = Except.ok (c.UpdateRow data) := by
  simp [processEntry, assertObject, hM, hA, ifaceEqString, firstArgument, assertArray, index0]

theorem processStreamMessage_hubFrame_snapshot (c : AppCache) (cursor : String)
    (L : List Value) (hL : ∀ r ∈ L, wellFormedRow r = true) :
    processStreamMessage c (hubFrame cursor "updateSingleTable" L)
      = Except.ok ⟨L.foldl AppCache.updateRowStep GoMap.empty⟩ := by
  have h := processEntry_updateSingleTable c
    [("H", Value.string "myhub"), ("M", Value.string "updateSingleTable"),
      ("A", Value.array [Value.array L])] L [] (by simp [GoMap.get]) (by simp [GoMap.get]) hL
  simp [processStreamMessage, hubFrame, processEntries, h]

theorem processStreamMessage_hubFrame_updateRow (c : AppCache) (cursor : String)
    (L : List Value) :
    processStreamMessage c (hubFrame cursor "updateRow" L)
      = Except.ok (c.UpdateRow (Value.array L)) := by
  have h := processEntry_updateRow c
    [("H", Value.string "myhub"), ("M", Value.string "updateRow"),
      ("A", Value.array [Value.array L])] (Value.array L) [] (by simp [GoMap.get]) (by simp [GoMap.get])
  simp [processStreamMessage, hubFrame, processEntries, h]

theorem ifaceEqString_eq_true_iff (v : Option Value) (t : String) :
    ifaceEqString v t = true ↔ v = some (Value.string t) := by
  cases v with
  | none => simp [ifaceEqString]
  | some x => cases x <;> simp [ifaceEqString]

theorem wellFormedRow_iff (r : Value) :
    wellFormedRow r = true
      ↔ ∃ row s, r = Value.object row ∧ GoMap.get row "SymbolId" = some (Value.number s) := by
  constructor
  · intro h
    cases r with
    | object row =>
      simp only [wellFormedRow, rowKey] at h
      split at h
      · rename_i s hs
        exact ⟨row, s, rfl, hs⟩
      · simp at h
    | _ => simp [wellFormedRow, rowKey] at h
  · rintro ⟨row, s, rfl, hs⟩
    simp [wellFormedRow, rowKey, hs]

theorem rowKey_of_SymbolId (row : GoMap) (s : Float64)
    (hs : GoMap.get row "SymbolId" = some (Value.number s)) :
    rowKey (Value.object row) = some (sprintf0f s) := by
  simp [rowKey, hs]

/-! ## the claims -/

/-- C1: dispatching a full-snapshot entry (tag `updateSingleTable`, first argument a
list `L` of row objects with numeric `SymbolId`) on any prior cache succeeds, and
the table then read by `GetTable` is the table built from `L` alone: its keys are
exactly the keys of the rows of `L`, each key holds the last row of `L` with that
key, a key produced by no row of `L` is absent whatever the prior table held, and
every key occurs once. -/
theorem snapshot_then_GetTable_exact (c : AppCache) (cursor : String) (msg : GoMap)
    (L rest : List Value)
    (hM : GoMap.get msg "M" = some (Value.string "updateSingleTable"))
    (hA : GoMap.get msg "A" = some (Value.array (Value.array L :: rest)))
    (hL : ∀ r ∈ L, ∃ row s, r = Value.object row ∧
      GoMap.get row "SymbolId" = some (Value.number s)) :
    ∃ c', processStreamMessage c ⟨cursor, [Value.object msg]⟩ = Except.ok c' ∧
      (∀ k, k ∈ GoMap.keys c'.GetTable ↔ ∃ r ∈ L, rowKey r = some k) ∧
      (∀ k, GoMap.get c'.GetTable k = lastRowWithKey L k) ∧
      (∀ k, (∀ r ∈ L, rowKey r ≠ some k) → GoMap.get c'.GetTable k = none) ∧
      GoMap.WF c'.GetTable := by
  have hW : ∀ r ∈ L, wellFormedRow r = true := fun r hr => (wellFormedRow_iff r).mpr (hL r hr)
  have hget : ∀ k, GoMap.get (L.foldl AppCache.updateRowStep GoMap.empty) k
      = lastRowWithKey L k := by
    intro k
    rw [get_foldl_updateRowStep]
    cases lastRowWithKey L k <;> simp [GoMap.get, GoMap.empty]
  refine ⟨⟨L.foldl AppCache.updateRowStep GoMap.empty⟩, ?_, ?_, ?_, ?_, ?_⟩
  · simp [processStreamMessage, processEntries,
      processEntry_updateSingleTable c msg L rest hM hA hW]
  · intro k
    simp only [AppCache.GetTable]
    constructor
    · intro hk
      by_contra hno
      have hnone : lastRowWithKey L k = none :=
        (lastRowWithKey_eq_none_iff L k).mpr (fun r hr e => hno ⟨r, hr, e⟩)
      have : GoMap.get (L.foldl AppCache.updateRowStep GoMap.empty) k = none := by
        rw [hget, hnone]
      exact ((GoMap.get_eq_none_iff _ k).mp this) hk
    · rintro ⟨r, hr, e⟩
      by_contra hk
      have h1 := (GoMap.get_eq_none_iff _ k).mpr hk
      rw [hget] at h1
      exact (lastRowWithKey_eq_none_iff L k).mp h1 r hr e
  · intro k
    exact hget k
  · intro k hk
    simp only [AppCache.GetTable]
    rw [hget]
    exact (lastRowWithKey_eq_none_iff L k).mpr hk
  · exact WF_foldl_updateRowStep L GoMap.empty (by simp [GoMap.WF, GoMap.keys, GoMap.empty])

/-- Witness for C1: the stale key `"9"` is gone, and key `"1"`, given twice, holds
the later row. -/
theorem snapshot_then_GetTable_exact_witness :
    GoMap.get snapshotEntry "M" = some (Value.string "updateSingleTable") ∧
    GoMap.get snapshotEntry "A" = some (Value.array [Value.array snapshotRows]) ∧
    ∃ c', processStreamMessage staleCache ⟨"d-0", [Value.object snapshotEntry]⟩ = Except.ok c' ∧
      (∀ k, k ∈ GoMap.keys c'.GetTable ↔ ∃ r ∈ snapshotRows, rowKey r = some k) ∧
      (∀ k, GoMap.get c'.GetTable k = lastRowWithKey snapshotRows k) ∧
      (∀ k, (∀ r ∈ snapshotRows, rowKey r ≠ some k) → GoMap.get c'.GetTable k = none) ∧
      GoMap.WF c'.GetTable :=
  ⟨by simp [snapshotEntry, GoMap.get], by simp [snapshotEntry, GoMap.get],
   snapshot_then_GetTable_exact staleCache "d-0" snapshotEntry snapshotRows []
    (by simp [snapshotEntry, GoMap.get]) (by simp [snapshotEntry, GoMap.get])
    (by
      intro r hr
      simp only [snapshotRows, List.mem_cons, List.mem_singleton, List.not_mem_nil,
        or_false] at hr
      rcases hr with rfl | rfl | rfl
      · exact ⟨_, Float64.ofNat 1, rfl, by simp [GoMap.get]⟩
      · exact ⟨_, Float64.ofNat 2, rfl, by simp [GoMap.get]⟩
      · exact ⟨_, Float64.ofNat 1, rfl, by simp [GoMap.get]⟩)⟩

/-- C2: `UpdateRow` on the one-element list `[r]`, where `r` is a row object with
numeric `SymbolId` `s`, stores `r` under `key(s)` (added or overwritten) and leaves
the value and the presence of every other key as they were; `SymbolId` 5.0 gives
the key `"5"`, so dispatching the row-update frame for the row with `SymbolId` 5.0
leaves that row under `"5"`; and a snapshot of rows with `SymbolId` 1 and 2 followed
by a row update for `SymbolId` 1 leaves exactly the keys `"1"` and `"2"`, the first
holding the updated row and the second the snapshot row. -/
theorem UpdateRow_single_row_upsert (c : AppCache) (rowData : GoMap) (s : Float64)
    (hs : GoMap.get rowData "SymbolId" = some (Value.number s)) :
    GoMap.get (c.UpdateRow (Value.array [Value.object rowData])).GetTable (sprintf0f s)
        = some (Value.object rowData) ∧
    (∀ k, k ≠ sprintf0f s →
      GoMap.get (c.UpdateRow (Value.array [Value.object rowData])).GetTable k
        = GoMap.get c.GetTable k) ∧
    (∀ k, k ≠ sprintf0f s →
      (k ∈ GoMap.keys (c.UpdateRow (Value.array [Value.object rowData])).GetTable
        ↔ k ∈ GoMap.keys c.GetTable)) ∧
    sprintf0f (Float64.ofNat 5) = "5" ∧ sprintf0f ⟨false, 5 * 2 ^ 50, -50⟩ = "5" ∧
    (∃ c5, processStreamMessage c (hubFrame "d-0,0|1,1" "updateRow" [Value.object row5])
        = Except.ok c5 ∧
      GoMap.get c5.GetTable "5" = some (Value.object row5)) ∧
    (∀ r1 r2 u1 : GoMap,
      GoMap.get r1 "SymbolId" = some (Value.number (Float64.ofNat 1)) →
      GoMap.get r2 "SymbolId" = some (Value.number (Float64.ofNat 2)) →
      GoMap.get u1 "SymbolId" = some (Value.number (Float64.ofNat 1)) →
      ∃ c1 c2,
        processStreamMessage c
          (hubFrame "" "updateSingleTable" [Value.object r1, Value.object r2]) = Except.ok c1 ∧
        processStreamMessage c1 (hubFrame "" "updateRow" [Value.object u1]) = Except.ok c2 ∧
        (∀ k, k ∈ GoMap.keys c2.GetTable ↔ k = "1" ∨ k = "2") ∧
        GoMap.get c2.GetTable "1" = some (Value.object u1) ∧
        GoMap.get c2.GetTable "2" = some (Value.object r2)) := by
  have hk := rowKey_of_SymbolId rowData s hs
  have hT : (c.UpdateRow (Value.array [Value.object rowData])).GetTable
      = GoMap.set c.Table (sprintf0f s) (Value.object rowData) := by
    simp [AppCache.UpdateRow, AppCache.GetTable, updateRowStep_of_key _ _ _ hk]
  have h1 : sprintf0f (Float64.ofNat 1) = "1" := by decide
  have h2 : sprintf0f (Float64.ofNat 2) = "2" := by decide
  have h5 : sprintf0f (Float64.ofNat 5) = "5" := by decide
  refine ⟨?_, ?_, ?_, h5, by decide, ?_, ?_⟩
  · rw [hT]; exact GoMap.get_set_self _ _ _
  · intro k hne
    rw [hT]; exact GoMap.get_set_ne _ _ _ _ hne
  · intro k hne
    rw [hT, GoMap.mem_keys_iff, GoMap.mem_keys_iff, GoMap.get_set_ne _ _ _ _ hne]
    rfl
  · refine ⟨c.UpdateRow (Value.array [Value.object row5]),
      processStreamMessage_hubFrame_updateRow c _ _, ?_⟩
    have hk5 : rowKey (Value.object row5) = some "5" := by
      rw [rowKey_of_SymbolId row5 (Float64.ofNat 5) (by simp [row5, GoMap.get]), h5]
    simp only [AppCache.UpdateRow, AppCache.GetTable, List.foldl_cons, List.foldl_nil,
      updateRowStep_of_key _ _ _ hk5]
    exact GoMap.get_set_self _ _ _
  · intro r1 r2 u1 hr1 hr2 hu1
    have k1 : rowKey (Value.object r1) = some "1" := by rw [rowKey_of_SymbolId r1 _ hr1, h1]
    have k2 : rowKey (Value.object r2) = some "2" := by rw [rowKey_of_SymbolId r2 _ hr2, h2]
    have ku : rowKey (Value.object u1) = some "1" := by rw [rowKey_of_SymbolId u1 _ hu1, h1]
    have hW : ∀ r ∈ [Value.object r1, Value.object r2], wellFormedRow r = true := by
      intro r hr
      simp only [List.mem_cons, List.mem_singleton, List.not_mem_nil, or_false] at hr
      rcases hr with rfl | rfl
      · simp [wellFormedRow, k1]
      · simp [wellFormedRow, k2]
    refine ⟨_, _, processStreamMessage_hubFrame_snapshot c "" _ hW,
      processStreamMessage_hubFrame_updateRow _ "" _, ?_, ?_, ?_⟩
    · intro k
      simp [AppCache.UpdateRow, AppCache.GetTable, updateRowStep_of_key _ _ _ k1,
        updateRowStep_of_key _ _ _ k2, updateRowStep_of_key _ _ _ ku, GoMap.set, GoMap.empty,
        GoMap.keys]
    · simp [AppCache.UpdateRow, AppCache.GetTable, updateRowStep_of_key _ _ _ k1,
        updateRowStep_of_key _ _ _ k2, updateRowStep_of_key _ _ _ ku, GoMap.set, GoMap.empty,
        GoMap.get]
    · simp [AppCache.UpdateRow, AppCache.GetTable, updateRowStep_of_key _ _ _ k1,
        updateRowStep_of_key _ _ _ k2, updateRowStep_of_key _ _ _ ku, GoMap.set, GoMap.empty,
        GoMap.get]

/-- Witness for C2: the row with `SymbolId` 5.0 upserted into a cache holding only
the key `"9"`. -/
theorem UpdateRow_single_row_upsert_witness :
    GoMap.get row5 "SymbolId" = some (Value.number (Float64.ofNat 5)) ∧
    GoMap.get (staleCache.UpdateRow (Value.array [Value.object row5])).GetTable
        (sprintf0f (Float64.ofNat 5)) = some (Value.object row5) ∧
    (∀ k, k ≠ sprintf0f (Float64.ofNat 5) →
      GoMap.get (staleCache.UpdateRow (Value.array [Value.object row5])).GetTable k
        = GoMap.get staleCache.GetTable k) :=
  ⟨by simp [row5, GoMap.get],
   (UpdateRow_single_row_upsert staleCache row5 (Float64.ofNat 5)
      (by simp [row5, GoMap.get])).1,
   (UpdateRow_single_row_upsert staleCache row5 (Float64.ofNat 5)
      (by simp [row5, GoMap.get])).2.1⟩

theorem lastRowWithKey_mem (L : List Value) (k : String) (r : Value)
    (h : lastRowWithKey L k = some r) : r ∈ L ∧ rowKey r = some k := by
  have hm := List.mem_of_getLast?_eq_some h
  simpa [List.mem_filter] using hm

theorem lastRowWithKey_last_occurrence (pre post : List Value) (r : Value) (k : String)
    (hk : rowKey r = some k) (hpost : ∀ x ∈ post, rowKey x ≠ some k) :
    lastRowWithKey (pre ++ r :: post) k = some r := by
  have hf : post.filter (fun x => decide (rowKey x = some k)) = [] := by
    rw [List.filter_eq_nil_iff]
    intro x hx
    simpa using hpost x hx
  simp [lastRowWithKey, List.filter_append, List.filter_cons, hk, hf]

/-- C4: for every cache and every batch `L` of arbitrary decoded values, `UpdateRow`
applies every well-formed entry of `L`, whatever malformed entries precede or follow
it: a well-formed row (an object whose `SymbolId` is a number `s`) that no later
entry of the batch overrides is stored under `key(s)`; the key of every well-formed
entry holds, after the call, a well-formed row of the batch with that key; each key
holds the last well-formed row of `L` with that key, and the prior value when `L` has
none; and the resulting cache is the one `UpdateRow` gives on `L` with the malformed
entries (non-objects, objects without `SymbolId`, objects whose `SymbolId` is not a
number) removed. -/
theorem UpdateRow_skips_malformed (c : AppCache) (L : List Value) :
    c.UpdateRow (Value.array L) = c.UpdateRow (Value.array (L.filter wellFormedRow)) ∧
    (∀ r, wellFormedRow r = true ↔
      ∃ row s, r = Value.object row ∧ GoMap.get row "SymbolId" = some (Value.number s)) ∧
    (∀ (pre post : List Value) (row : GoMap) (s : Float64),
      L = pre ++ Value.object row :: post →
      GoMap.get row "SymbolId" = some (Value.number s) →
      (∀ x ∈ post, rowKey x ≠ some (sprintf0f s)) →
      GoMap.get (c.UpdateRow (Value.array L)).GetTable (sprintf0f s)
        = some (Value.object row)) ∧
    (∀ r ∈ L, wellFormedRow r = true →
      ∃ k r', rowKey r = some k ∧ r' ∈ L ∧ rowKey r' = some k ∧
        GoMap.get (c.UpdateRow (Value.array L)).GetTable k = some r') ∧
    (∀ k r, lastRowWithKey L k = some r →
      GoMap.get (c.UpdateRow (Value.array L)).GetTable k = some r) ∧
    (∀ k, lastRowWithKey L k = none →
      GoMap.get (c.UpdateRow (Value.array L)).GetTable k = GoMap.get c.GetTable k) := by
  have hget : ∀ k, GoMap.get (c.UpdateRow (Value.array L)).GetTable k
      = match lastRowWithKey L k with
        | some r => some r
        | none => GoMap.get c.Table k := by
    intro k
    simp only [AppCache.UpdateRow, AppCache.GetTable]
    exact get_foldl_updateRowStep L c.Table k
  refine ⟨?_, wellFormedRow_iff, ?_, ?_, ?_, ?_⟩
  · simp only [AppCache.UpdateRow]
    rw [foldl_updateRowStep_filter]
  · intro pre post row s hL hs hpost
    have hk := rowKey_of_SymbolId row s hs
    rw [hget, hL, lastRowWithKey_last_occurrence pre post _ _ hk hpost]
  · intro r hr hw
    obtain ⟨k, hk⟩ := Option.isSome_iff_exists.mp hw
    cases hl : lastRowWithKey L k with
    | none => exact absurd hk ((lastRowWithKey_eq_none_iff L k).mp hl r hr)
    | some r' =>
      have hm := lastRowWithKey_mem L k r' hl
      refine ⟨k, r', hk, hm.1, hm.2, ?_⟩
      rw [hget, hl]
  · intro k r hl
    rw [hget, hl]
  · intro k hl
    rw [hget, hl]
    rfl

/-- Witness for C4: in `mixedBatch`, applied to a cache holding only the key `"9"`,
the rows with `SymbolId` 1 and 2 are both stored although malformed entries stand
before, between and after them, and the key `"9"` keeps its value. -/
theorem UpdateRow_skips_malformed_witness :
    GoMap.get (staleCache.UpdateRow (Value.array mixedBatch)).GetTable
        (sprintf0f (Float64.ofNat 1))
      = some (Value.object [("SymbolId", Value.number (Float64.ofNat 1)),
          ("LastPrice", Value.number (Float64.ofNat 10))]) ∧
    GoMap.get (staleCache.UpdateRow (Value.array mixedBatch)).GetTable
        (sprintf0f (Float64.ofNat 2))
      = some (Value.object [("SymbolId", Value.number (Float64.ofNat 2))]) ∧
    sprintf0f (Float64.ofNat 1) = "1" ∧ sprintf0f (Float64.ofNat 2) = "2" :=
  ⟨(UpdateRow_skips_malformed staleCache mixedBatch).2.2.1
      [Value.string "junk"]
      [Value.object [("LastPrice", Value.number (Float64.ofNat 3))],
       Value.object [("SymbolId", Value.string "x")], Value.null,
       Value.object [("SymbolId", Value.number (Float64.ofNat 2))]]
      [("SymbolId", Value.number (Float64.ofNat 1)),
        ("LastPrice", Value.number (Float64.ofNat 10))]
      (Float64.ofNat 1) rfl (by simp [GoMap.get])
      (by
        have h12 : sprintf0f (Float64.ofNat 2) ≠ sprintf0f (Float64.ofNat 1) := by decide
        intro x hx
        simp only [List.mem_cons, List.mem_singleton, List.not_mem_nil, or_false] at hx
        rcases hx with rfl | rfl | rfl | rfl
        · simp [rowKey, GoMap.get]
        · simp [rowKey, GoMap.get]
        · simp [rowKey]
        · simpa [rowKey, GoMap.get] using h12),
   (UpdateRow_skips_malformed staleCache mixedBatch).2.2.1
      [Value.string "junk",
       Value.object [("SymbolId", Value.number (Float64.ofNat 1)),
         ("LastPrice", Value.number (Float64.ofNat 10))],
       Value.object [("LastPrice", Value.number (Float64.ofNat 3))],
       Value.object [("SymbolId", Value.string "x")], Value.null]
      []
      [("SymbolId", Value.number (Float64.ofNat 2))]
      (Float64.ofNat 2) rfl (by simp [GoMap.get]) (by simp),
   by decide, by decide⟩

/-- C5 (the code at the failing input): on a snapshot batch whose first entry has a
`SymbolId` that is a string, `convertToSymbolIdMap` panics at the unchecked
assertion `symbolId.(float64)` and so does the dispatch of the frame, installing no
row; the sibling `UpdateRow` skips that entry and applies the row with `SymbolId` 2. -/
theorem convertToSymbolIdMap_string_SymbolId_panics :
    convertToSymbolIdMap (Value.array stringIdRows) = Except.error Panic.typeAssertion ∧
    (∀ c : AppCache, processStreamMessage c (hubFrame "" "updateSingleTable" stringIdRows)
      = Except.error Panic.typeAssertion) ∧
    GoMap.get (NewAppCache.UpdateRow (Value.array stringIdRows)).GetTable "2"
      = some (Value.object [("SymbolId", Value.number (Float64.ofNat 2))]) := by
  have h2 : sprintf0f (Float64.ofNat 2) = "2" := by decide
  refine ⟨rfl, fun c => rfl, ?_⟩
  simp [NewAppCache, AppCache.UpdateRow, AppCache.GetTable, stringIdRows,
    AppCache.updateRowStep, GoMap.get, GoMap.set, GoMap.empty, h2]

/-- C8: when every entry of the message is an object whose field `M` is neither the
string `updateSingleTable` nor the string `updateRow` (missing and non-string tags
included), `processStreamMessage` returns normally and the cache is unchanged,
whatever the field `A` holds. -/
theorem processStreamMessage_unknown_tag_noop (c : AppCache) (message : StreamMessage)
    (h : ∀ m ∈ message.M, ∃ msg, m = Value.object msg ∧
      GoMap.get msg "M" ≠ some (Value.string "updateSingleTable") ∧
      GoMap.get msg "M" ≠ some (Value.string "updateRow")) :
    processStreamMessage c message = Except.ok c := by
  obtain ⟨cursor, M⟩ := message
  simp only [processStreamMessage]
  simp only at h
  induction M with
  | nil => rfl
  | cons m rest ih =>
    obtain ⟨msg, rfl, hS, hR⟩ := h m (List.mem_cons_self _ _)
    have e1 : ifaceEqString (GoMap.get msg "M") "updateSingleTable" = false := by
      cases hb : ifaceEqString (GoMap.get msg "M") "updateSingleTable" with
      | false => rfl
      | true => exact absurd ((ifaceEqString_eq_true_iff _ _).mp hb) hS
    have e2 : ifaceEqString (GoMap.get msg "M") "updateRow" = false := by
      cases hb : ifaceEqString (GoMap.get msg "M") "updateRow" with
      | false => rfl
      | true => exact absurd ((ifaceEqString_eq_true_iff _ _).mp hb) hR
    have hstep : processEntry c (Value.object msg) = Except.ok c := by
      simp [processEntry, assertObject, e1, e2]
    simp only [processEntries, hstep]
    exact ih (fun x hx => h x (List.mem_cons_of_mem _ hx))

/-- Witness for C8: a frame with an unknown tag, a missing tag and a numeric tag. -/
theorem processStreamMessage_unknown_tag_noop_witness :
    processStreamMessage staleCache unknownTagFrame = Except.ok staleCache :=
  processStreamMessage_unknown_tag_noop staleCache unknownTagFrame (by
    intro m hm
    simp only [unknownTagFrame, List.mem_cons, List.mem_singleton, List.not_mem_nil,
      or_false] at hm
    rcases hm with rfl | rfl | rfl
    · exact ⟨_, rfl, by simp [GoMap.get], by simp [GoMap.get]⟩
    · exact ⟨_, rfl, by simp [GoMap.get], by simp [GoMap.get]⟩
    · exact ⟨_, rfl, by simp [GoMap.get], by simp [GoMap.get]⟩)

/-- C10 (the code at failing inputs): `processStreamMessage` panics on a frame whose
entry is not an object, on a known tag with `A` missing, with `A` not a list, with
`A` the empty list, and on a snapshot whose argument is not a list. -/
theorem processStreamMessage_wrong_shape_panics (c : AppCache) :
    processStreamMessage c ⟨"", [Value.string "x"]⟩ = Except.error Panic.typeAssertion ∧
    processStreamMessage c ⟨"", [Value.object [("M", Value.string "updateRow")]]⟩
      = Except.error Panic.typeAssertion ∧
    processStreamMessage c
        ⟨"", [Value.object [("M", Value.string "updateRow"), ("A", Value.string "rows")]]⟩
      = Except.error Panic.typeAssertion ∧
    processStreamMessage c
        ⟨"", [Value.object [("M", Value.string "updateSingleTable"), ("A", Value.array [])]]⟩
      = Except.error Panic.indexOutOfRange ∧
    processStreamMessage c
        ⟨"", [Value.object [("M", Value.string "updateSingleTable"),
          ("A", Value.array [Value.null])]]⟩
      = Except.error Panic.typeAssertion :=
  ⟨rfl, rfl, rfl, rfl, rfl⟩

/-! ## lemmas on the supervisor -/

theorem wrapInt64_of_small (x : Int) (h0 : 0 ≤ x) (h1 : x < 2 ^ 63) : wrapInt64 x = x := by
  unfold wrapInt64
  have e : (x + 2 ^ 63) % 2 ^ 64 = x + 2 ^ 63 :=
    Int.emod_eq_of_lt (by omega) (by omega)
  omega

theorem nextBackoff_eq_min (b : Int) (h0 : 0 ≤ b) (h1 : b ≤ Minute * 5) :
    nextBackoff b = min (b * 2) (Minute * 5) := by
  have hc : Minute * 5 = 300000000000 := by decide
  rw [hc] at h1 ⊢
  unfold nextBackoff
  rw [wrapInt64_of_small (b * 2) (by omega) (by omega), hc]
  simp only []
  split <;> omega

theorem nextBackoff_min_pow (j : Nat) :
    nextBackoff (min (Second * 2 ^ j) (Minute * 5)) = min (Second * 2 ^ (j + 1)) (Minute * 5) := by
  have hc : Minute * 5 = 300000000000 := by decide
  have hs : Second = 1000000000 := rfl
  have hp : (0 : Int) < 2 ^ j := by positivity
  have h0 : (0 : Int) ≤ min (Second * 2 ^ j) (Minute * 5) := by rw [hc, hs]; omega
  rw [nextBackoff_eq_min _ h0 (min_le_right _ _), pow_succ, hc, hs]
  omega

theorem superviseFrom_failures (errs : List SessionError) (j : Nat) :
    superviseFrom (min (Second * 2 ^ j) (Minute * 5)) (errs.map some)
      = (List.range errs.length).map (fun i => min (Second * 2 ^ (j + i)) (Minute * 5)) := by
  induction errs generalizing j with
  | nil => rfl
  | cons e rest ih =>
    simp only [List.map_cons, superviseFrom, List.length_cons, List.range_succ_eq_map,
      List.map_map, nextBackoff_min_pow, ih (j + 1)]
    refine congrArg₂ _ (by simp) ?_
    apply List.map_congr_left
    intro i _
    simp only [Function.comp_apply]
    rw [show j + 1 + i = j + (i + 1) by omega]

theorem superviseFrom_append (xs ys : List (Option SessionError)) (b : Int) :
    superviseFrom b (xs ++ ys) = superviseFrom b xs ++ superviseFrom (backoffAfter b xs) ys := by
  induction xs generalizing b with
  | nil => rfl
  | cons r rest ih =>
    cases r with
    | none => simp [superviseFrom, backoffAfter, ih]
    | some e => simp [superviseFrom, backoffAfter, ih]

theorem nextBackoff_bounds (b : Int) (h0 : Second ≤ b) (h1 : b ≤ Minute * 5) :
    2 * Second ≤ nextBackoff b ∧ nextBackoff b ≤ Minute * 5 := by
  have hc : Minute * 5 = 300000000000 := by decide
  have hs : Second = 1000000000 := rfl
  rw [hs] at h0
  rw [nextBackoff_eq_min b (by omega) h1, hc, hs]
  rw [hc] at h1
  omega

theorem backoffAfter_bounds (xs : List (Option SessionError)) (b : Int)
    (h0 : Second ≤ b) (h1 : b ≤ Minute * 5) :
    Second ≤ backoffAfter b xs ∧ backoffAfter b xs ≤ Minute * 5 := by
  induction xs generalizing b with
  | nil => exact ⟨h0, h1⟩
  | cons r rest ih =>
    cases r with
    | none => exact ih Second (le_refl _) (by decide)
    | some e =>
      have hb := nextBackoff_bounds b h0 h1
      have hs : Second = 1000000000 := rfl
      exact ih (nextBackoff b) (by rw [hs] at hb ⊢; omega) hb.2

/-- C6: for every run of consecutive failing sessions from the initial state, the
waits slept are `min(b * 2^i, c)` for `i = 0, 1, ..., N-1`, with `b` one second and
`c` five minutes; and each doubling `backoff * 2` the loop performs stays inside
the `int64` range, so the wrapped product is the exact product. -/
theorem startStreamProcessing_backoff_sequence (errs : List SessionError) :
    startStreamProcessing (errs.map some)
      = (List.range errs.length).map (fun i => min (Second * 2 ^ i) (Minute * 5)) ∧
    (∀ i : Nat, wrapInt64 (min (Second * 2 ^ i) (Minute * 5) * 2)
      = min (Second * 2 ^ i) (Minute * 5) * 2) ∧
    Second = 1000000000 ∧ Minute * 5 = 300000000000 := by
  have hc : Minute * 5 = 300000000000 := by decide
  have hs : Second = 1000000000 := rfl
  refine ⟨?_, ?_, hs, hc⟩
  · have h := superviseFrom_failures errs 0
    simpa [startStreamProcessing] using h
  · intro i
    have hp : (0 : Int) < 2 ^ i := by positivity
    apply wrapInt64_of_small
    · rw [hc, hs]; omega
    · rw [hc, hs]; omega

/-- C7 as stated fails: after a failed negotiation, a session that attached and ended
with the stream-closed error, and one more failure, the waits are 1 s, 2 s and 4 s:
the wait after the failure that follows the stream-closed session is not the base
interval. -/
theorem stream_closed_does_not_reset_backoff :
    startStreamProcessing
        [some SessionError.negotiating, some SessionError.streamClosed,
          some SessionError.negotiating]
      = [Second, 2 * Second, 4 * Second] ∧
    startStreamProcessing [some SessionError.streamClosed, some SessionError.negotiating]
      = [Second, 2 * Second] ∧
    (2 * Second ≠ Second) ∧ (4 * Second ≠ Second) := by
  decide

/-- C7 amended: for every sequence of earlier session results, the backoff is back at
the base interval after a session that returns a nil error, so the wait slept for
the next failure is one second however many failures preceded; a session that ends
in an error, the stream-closed error included, is a failure like any other: it is
followed by a wait of its own and the wait of the next failure is the doubled one
(capped at five minutes), which is never the base interval. -/
theorem backoff_resets_only_after_nil (pre : List (Option SessionError))
    (e e2 : SessionError) :
    startStreamProcessing (pre ++ [none, some e2]) = startStreamProcessing pre ++ [Second] ∧
    startStreamProcessing (pre ++ [some e, some e2])
      = startStreamProcessing pre
          ++ [backoffAfter Second pre, min (backoffAfter Second pre * 2) (Minute * 5)] ∧
    Second < min (backoffAfter Second pre * 2) (Minute * 5) := by
  have hb := backoffAfter_bounds pre Second (le_refl _) (by decide)
  have hc : Minute * 5 = 300000000000 := by decide
  have hs : Second = 1000000000 := rfl
  have hb1 : (1000000000 : Int) ≤ backoffAfter Second pre := hb.1
  have h0 : (0 : Int) ≤ backoffAfter Second pre := by omega
  refine ⟨?_, ?_, ?_⟩
  · simp [startStreamProcessing, superviseFrom_append, superviseFrom]
  · simp [startStreamProcessing, superviseFrom_append, superviseFrom,
      nextBackoff_eq_min _ h0 hb.2]
  · rw [hc]
    generalize backoffAfter Second pre = w at hb1
    rw [hs]
    omega

/-! ## lemmas on the filter -/

theorem marketMatches_iff (ovf : Float64 → Int) (m : Int) (v : Value) :
    AppCache.marketMatches ovf m v = true
      ↔ ∃ row x, v = Value.object row ∧
          GoMap.get row "MarketNumber" = some (Value.number x) ∧ intOfFloat ovf x = m := by
  constructor
  · intro h
    cases v with
    | object row =>
      simp only [AppCache.marketMatches] at h
      split at h
      · rename_i x hx
        exact ⟨row, x, rfl, hx, of_decide_eq_true h⟩
      · simp at h
    | _ => simp [AppCache.marketMatches] at h
  · rintro ⟨row, x, rfl, hx, hm⟩
    simp [AppCache.marketMatches, hx, hm]

theorem get_foldl_filterStep (ovf : Float64 → Int) (m : Int) (T acc : GoMap)
    (hT : GoMap.WF T) (k : String) :
    GoMap.get (T.foldl (AppCache.filterStep ovf m) acc) k
      = match GoMap.get T k with
        | some v => if AppCache.marketMatches ovf m v then some v else GoMap.get acc k
        | none => GoMap.get acc k := by
  induction T generalizing acc with
  | nil => simp [GoMap.get]
  | cons kv rest ih =>
    obtain ⟨k', v'⟩ := kv
    have hnd : k' ∉ GoMap.keys rest ∧ GoMap.WF rest := by
      simpa [GoMap.WF, GoMap.keys] using hT
    rw [List.foldl_cons, ih _ hnd.2]
    by_cases hk : k' = k
    · subst hk
      have hnone := (GoMap.get_eq_none_iff rest k').mpr hnd.1
      simp only [hnone, GoMap.get, if_true, AppCache.filterStep]
      by_cases hm : AppCache.marketMatches ovf m v' = true
      · simp [hm, GoMap.get_set_self]
      · simp [hm]
    · have hk2 : k ≠ k' := fun e => hk e.symm
      have hacc : GoMap.get (AppCache.filterStep ovf m acc (k', v')) k = GoMap.get acc k := by
        simp only [AppCache.filterStep]
        split
        · exact GoMap.get_set_ne _ _ _ _ hk2
        · rfl
      simp only [GoMap.get, hk, if_false, hacc]

theorem foldl_filterStep_none (ovf : Float64 → Int) (m : Int) (T acc : GoMap)
    (h : ∀ kv ∈ T, AppCache.marketMatches ovf m kv.2 = false) :
    T.foldl (AppCache.filterStep ovf m) acc = acc := by
  induction T generalizing acc with
  | nil => rfl
  | cons kv rest ih =>
    have h1 := h kv (List.mem_cons_self _ _)
    rw [List.foldl_cons, ih _ (fun x hx => h x (List.mem_cons_of_mem _ hx))]
    simp [AppCache.filterStep, h1]

theorem GoMap.get_of_mem (T : GoMap) (hT : GoMap.WF T) (k : String) (v : Value)
    (h : (k, v) ∈ T) : GoMap.get T k = some v := by
  induction T with
  | nil => simp at h
  | cons kv rest ih =>
    obtain ⟨k', v'⟩ := kv
    have hnd : k' ∉ GoMap.keys rest ∧ GoMap.WF rest := by
      simpa [GoMap.WF, GoMap.keys] using hT
    rcases List.mem_cons.mp h with e | e
    · simp only [Prod.mk.injEq] at e
      simp [GoMap.get, e.1, e.2]
    · have hk : k' ≠ k := by
        intro e2
        apply hnd.1
        rw [e2]
        exact List.mem_map.mpr ⟨(k, v), e, rfl⟩
      simp [GoMap.get, hk, ih hnd.2 e]

theorem Float64.trunc_of_toRat_eq_int (x : Float64) (n : Int) (h : x.toRat = (n : ℚ)) :
    x.trunc = n := by
  obtain ⟨neg, mant, exp⟩ := x
  cases exp with
  | ofNat e =>
    simp only [Float64.toRat, Float64.trunc, Float64.truncMag] at h ⊢
    cases neg with
    | false =>
      simp only [Bool.false_eq_true, if_false, one_mul, Int.ofNat_eq_coe, zpow_natCast] at h ⊢
      have : ((mant * 2 ^ e : Nat) : ℚ) = (n : ℚ) := by push_cast; exact h
      exact_mod_cast this
    | true =>
      simp only [if_true, Int.ofNat_eq_coe, zpow_natCast] at h ⊢
      have : ((-((mant * 2 ^ e : Nat) : Int) : Int) : ℚ) = (n : ℚ) := by
        push_cast; rw [← h]; ring
      exact_mod_cast this
  | negSucc e =>
    simp only [Float64.toRat, Float64.trunc, Float64.truncMag] at h ⊢
    have hd : (0 : ℚ) < (2 : ℚ) ^ (e + 1) := by positivity
    have hz : (2 : ℚ) ^ Int.negSucc e = ((2 : ℚ) ^ (e + 1))⁻¹ := by
      rw [zpow_negSucc]
    rw [hz] at h
    cases neg with
    | false =>
      simp only [Bool.false_eq_true, if_false, one_mul] at h ⊢
      have h2 : (mant : ℚ) = (n : ℚ) * (2 : ℚ) ^ (e + 1) := by
        field_simp at h
        exact h
      have h3 : (mant : Int) = n * 2 ^ (e + 1) := by exact_mod_cast h2
      have hpos : (0 : Int) < 2 ^ (e + 1) := by positivity
      rw [Int.natCast_div, h3]
      push_cast
      exact Int.mul_ediv_cancel _ (ne_of_gt hpos)
    | true =>
      simp only [if_true] at h ⊢
      have h2 : (mant : ℚ) = (-n : ℚ) * (2 : ℚ) ^ (e + 1) := by
        field_simp at h
        linarith
      have h3 : (mant : Int) = (-n) * 2 ^ (e + 1) := by exact_mod_cast h2
      have hpos : (0 : Int) < 2 ^ (e + 1) := by positivity
      rw [Int.natCast_div, h3]
      push_cast
      rw [Int.mul_ediv_cancel _ (ne_of_gt hpos)]
      omega

/-- C3 as stated fails: the row whose `MarketNumber` is 1.5, a value different from
1, is returned by `GetFilteredTable(1)`, whatever the platform does on conversions
that overflow. -/
theorem GetFilteredTable_returns_fractional_market :
    onePointFive.toRat = 3 / 2 ∧ onePointFive.toRat ≠ ((1 : Int) : ℚ) ∧
    GoMap.get marketCache.GetTable "7"
      = some (Value.object [("SymbolId", Value.number (Float64.ofNat 7)),
          ("MarketNumber", Value.number onePointFive)]) ∧
    (∀ ovf : Float64 → Int, GoMap.get (marketCache.GetFilteredTable ovf 1) "7"
      = some (Value.object [("SymbolId", Value.number (Float64.ofNat 7)),
          ("MarketNumber", Value.number onePointFive)])) := by
  have h15 : onePointFive.toRat = 3 / 2 := by
    norm_num [Float64.toRat, onePointFive]
  have t15 : onePointFive.trunc = 1 := by decide
  have t1 : (Float64.ofNat 1).trunc = 1 := by decide
  have t2 : (Float64.ofNat 2).trunc = 2 := by decide
  have hint : ∀ ovf : Float64 → Int, intOfFloat ovf onePointFive = 1 := fun ovf => by
    simp [intOfFloat, t15]
  have h1 : ∀ ovf : Float64 → Int, intOfFloat ovf (Float64.ofNat 1) = 1 := fun ovf => by
    simp [intOfFloat, t1]
  have h2 : ∀ ovf : Float64 → Int, intOfFloat ovf (Float64.ofNat 2) = 2 := fun ovf => by
    simp [intOfFloat, t2]
  refine ⟨h15, ?_, ?_, ?_⟩
  · rw [h15]; norm_num
  · simp [marketCache, AppCache.GetTable, GoMap.get]
  · intro ovf
    simp [marketCache, AppCache.GetFilteredTable, AppCache.filterStep, AppCache.marketMatches,
      GoMap.get, GoMap.set, GoMap.empty, hint ovf, h1 ovf, h2 ovf]

/-- C3 amended: for every cache table with unique keys and every integer `m`,
`GetFilteredTable(m)` holds exactly the entries of the table whose value is a row
object with a numeric `MarketNumber` whose conversion `int(.)` equals `m` (same key,
same value), and is the empty table when no entry is such; `int(.)` truncates toward
zero whenever the integer part fits in 64 bits, so a `MarketNumber` with the integral
value `n` is converted to `n`. -/
theorem GetFilteredTable_exact (ovf : Float64 → Int) (c : AppCache) (m : Int)
    (hc : GoMap.WF c.Table) :
    (∀ k v, GoMap.get (c.GetFilteredTable ovf m) k = some v ↔
      GoMap.get c.GetTable k = some v ∧
      ∃ row x, v = Value.object row ∧
        GoMap.get row "MarketNumber" = some (Value.number x) ∧ intOfFloat ovf x = m) ∧
    ((∀ k v, GoMap.get c.GetTable k = some v →
        ¬ ∃ row x, v = Value.object row ∧
          GoMap.get row "MarketNumber" = some (Value.number x) ∧ intOfFloat ovf x = m) →
      c.GetFilteredTable ovf m = GoMap.empty) ∧
    (∀ x : Float64, -(2 : Int) ^ 63 ≤ x.trunc → x.trunc < (2 : Int) ^ 63 →
      intOfFloat ovf x = x.trunc) ∧
    (∀ (x : Float64) (n : Int), x.toRat = (n : ℚ) → x.trunc = n) := by
  refine ⟨?_, ?_, ?_, Float64.trunc_of_toRat_eq_int⟩
  · intro k v
    simp only [AppCache.GetFilteredTable, AppCache.GetTable]
    rw [get_foldl_filterStep ovf m c.Table GoMap.empty hc k, ← marketMatches_iff]
    cases hg : GoMap.get c.Table k with
    | none => simp [GoMap.get, GoMap.empty]
    | some w =>
      by_cases hm : AppCache.marketMatches ovf m w = true
      · simp only [hm, if_true, Option.some.injEq]
        constructor
        · intro e; subst e; exact ⟨rfl, hm⟩
        · intro e; exact e.1
      · simp only [hm, GoMap.get, GoMap.empty]
        constructor
        · intro e; simp at e
        · rintro ⟨e, hv⟩
          simp only [Option.some.injEq] at e
          subst e
          exact absurd hv hm
  · intro h
    simp only [AppCache.GetFilteredTable]
    apply foldl_filterStep_none
    intro kv hkv
    cases hb : AppCache.marketMatches ovf m kv.2 with
    | false => rfl
    | true =>
      exact absurd ((marketMatches_iff ovf m kv.2).mp hb)
        (h kv.1 kv.2 (GoMap.get_of_mem c.Table hc kv.1 kv.2 hkv))
  · intro x h0 h1
    unfold intOfFloat
    rw [if_pos ⟨h0, h1⟩]

/-- Witness for C3: the table with market numbers 1, 2 and 1.5, filtered by 1. -/
theorem GetFilteredTable_exact_witness :
    GoMap.WF marketCache.Table ∧
    (∀ k v, GoMap.get (marketCache.GetFilteredTable (fun _ => 0) 1) k = some v ↔
      GoMap.get marketCache.GetTable k = some v ∧
      ∃ row x, v = Value.object row ∧
        GoMap.get row "MarketNumber" = some (Value.number x) ∧
        intOfFloat (fun _ => 0) x = 1) :=
  ⟨by simp [GoMap.WF, GoMap.keys, marketCache],
   (GetFilteredTable_exact (fun _ => 0) marketCache 1
      (by simp [GoMap.WF, GoMap.keys, marketCache])).1⟩

/-! ## lemmas on the authentication middleware -/

theorem splitSpace_ne_nil (l : List Char) : splitSpace l ≠ [] := by
  cases l with
  | nil => simp [splitSpace]
  | cons ch rest =>
    simp only [splitSpace]
    split
    · simp
    · split <;> simp

theorem joinSpace_splitSpace (l : List Char) : joinSpace (splitSpace l) = l := by
  induction l with
  | nil => rfl
  | cons ch rest ih =>
    simp only [splitSpace]
    cases hs : splitSpace rest with
    | nil => exact absurd hs (splitSpace_ne_nil rest)
    | cons piece pieces =>
      rw [hs] at ih
      by_cases hc : ch = spaceChar
      · simp only [hc, if_true, joinSpace, List.nil_append, ih]
      · simp only [hc, if_false]
        cases pieces with
        | nil =>
          simp only [joinSpace] at ih ⊢
          rw [ih]
        | cons q qs =>
          simp only [joinSpace] at ih ⊢
          rw [← ih]
          rfl

theorem splitSpace_of_no_space (l : List Char) (h : spaceChar ∉ l) : splitSpace l = [l] := by
  induction l with
  | nil => rfl
  | cons ch rest ih =>
    have hc : ¬ ch = spaceChar := fun e => h (by rw [e]; exact List.mem_cons_self _ _)
    have hr : spaceChar ∉ rest := fun e => h (List.mem_cons_of_mem _ e)
    simp [splitSpace, hc, ih hr]

theorem splitSpace_append_space (a b : List Char) (h : spaceChar ∉ a) :
    splitSpace (a ++ spaceChar :: b) = a :: splitSpace b := by
  induction a with
  | nil => simp [splitSpace]
  | cons ch rest ih =>
    have hc : ¬ ch = spaceChar := fun e => h (by rw [e]; exact List.mem_cons_self _ _)
    have hr : spaceChar ∉ rest := fun e => h (List.mem_cons_of_mem _ e)
    simp [splitSpace, hc, ih hr]

theorem AuthMiddleware_next_iff (token : String) (header : Option String) :
    AuthMiddleware token header = AuthResult.next
      ↔ header.getD "" ≠ "" ∧
        splitSpace (header.getD "").data = ["Bearer".data, token.data] := by
  simp only [AuthMiddleware]
  by_cases he : header.getD "" = ""
  · simp [he]
  · simp only [he, if_false, ne_eq, not_false_eq_true, true_and]
    cases hs : splitSpace (header.getD "").data with
    | nil => exact absurd hs (splitSpace_ne_nil _)
    | cons p0 ps =>
      cases ps with
      | nil => simp
      | cons p1 ps2 =>
        cases ps2 with
        | cons p2 ps3 => simp
        | nil =>
          simp only [List.map_cons, List.map_nil, List.length_cons, List.length_nil,
            List.head?_cons, List.getD_cons_succ, List.getD_cons_zero]
          by_cases h0 : String.mk p0 = "Bearer"
          · by_cases h1 : String.mk p1 = token
            · have e0 : p0 = "Bearer".data := by rw [← h0]
              have e1 : p1 = token.data := by rw [← h1]
              simp [h0, h1, e0, e1]
            · have e1 : ¬ p1 = token.data := fun e => h1 (by rw [e])
              simp [h0, h1, e1]
          · have e0 : ¬ p0 = "Bearer".data := fun e => h0 (by rw [e])
            simp [h0, e0]

theorem AuthMiddleware_next_or_401 (token : String) (header : Option String) :
    AuthMiddleware token header = AuthResult.next
      ∨ ∃ error, AuthMiddleware token header = AuthResult.abort 401 error := by
  simp only [AuthMiddleware]
  split
  · exact Or.inr ⟨_, rfl⟩
  · split
    · exact Or.inr ⟨_, rfl⟩
    · split
      · exact Or.inr ⟨_, rfl⟩
      · exact Or.inl rfl

theorem bearer_data (token : String) :
    ("Bearer " ++ token).data = "Bearer".data ++ spaceChar :: token.data := by
  rw [String.data_append]
  rfl

/-- C9 as stated fails: with the non-empty secret `a b` and the header `Bearer a b`,
which is exactly `Bearer ` followed by the secret, the request is aborted with 401. -/
theorem AuthMiddleware_rejects_secret_with_space :
    "a b" ≠ "" ∧
    AuthMiddleware "a b" (some ("Bearer " ++ "a b"))
      = AuthResult.abort 401 "Invalid authorization header format" := by
  decide

/-- C9 amended: for every secret token `t` that contains no space character and every
`Authorization` header (or none), the middleware lets the request through to the
handler if and only if the header is exactly `Bearer ` followed by `t`; in every
other case it aborts with status 401 and the handler is not run. -/
theorem AuthMiddleware_next_iff_bearer (token : String) (ht : spaceChar ∉ token.data)
    (header : Option String) :
    (AuthMiddleware token header = AuthResult.next ↔ header = some ("Bearer " ++ token)) ∧
    (header ≠ some ("Bearer " ++ token) →
      ∃ error, AuthMiddleware token header = AuthResult.abort 401 error) := by
  have hiff : AuthMiddleware token header = AuthResult.next
      ↔ header = some ("Bearer " ++ token) := by
    rw [AuthMiddleware_next_iff]
    constructor
    · rintro ⟨hne, hs⟩
      have hj := joinSpace_splitSpace (header.getD "").data
      rw [hs] at hj
      simp only [joinSpace] at hj
      have hd : header.getD "" = "Bearer " ++ token := by
        apply String.ext
        rw [bearer_data, ← hj]
      cases header with
      | none => exact absurd rfl hne
      | some h =>
        simp only [Option.getD_some] at hd
        rw [hd]
    · intro e
      subst e
      simp only [Option.getD_some]
      refine ⟨?_, ?_⟩
      · intro e2
        have := congrArg String.data e2
        rw [bearer_data] at this
        simp at this
      · rw [bearer_data, splitSpace_append_space _ _ (by decide),
          splitSpace_of_no_space _ ht]
  refine ⟨hiff, ?_⟩
  intro hne
  rcases AuthMiddleware_next_or_401 token header with h | h
  · exact absurd (hiff.mp h) hne
  · exact h

/-- Witness for C9: the secret `s3cret` and the header `Bearer s3cret`. -/
theorem AuthMiddleware_next_iff_bearer_witness :
    spaceChar ∉ "s3cret".data ∧
    AuthMiddleware "s3cret" (some ("Bearer " ++ "s3cret")) = AuthResult.next ∧
    (∃ error, AuthMiddleware "s3cret" none = AuthResult.abort 401 error) :=
  ⟨by decide,
   (AuthMiddleware_next_iff_bearer "s3cret" (by decide) (some ("Bearer " ++ "s3cret"))).1.mpr rfl,
   (AuthMiddleware_next_iff_bearer "s3cret" (by decide) none).2 (by simp)⟩

end IfbScrapper
